import Mathlib

/-!
Shallow embedding of the satellite-prime scanner in
`scripts/titan_radar_ultimate_5000.py`.

The scanner derives, for each main star `n`, the value
`P = n^47 - (n-1)^47`, then walks the even offsets `k = 2, 4, …, radius`,
skips the offsets with `k % 3 == 1`, and hands every remaining candidate
`P - k` to the gmpy2 primality oracle (when gmpy2 imported), emitting a hit
record for each candidate the oracle accepts.  Each input base is expanded
into the four consecutive stars `base, base+1, base+2, base+3`
(`for offset in range(4)` in the source).  The primality oracle
(`gmpy2.is_prime` with certainty 25) is external code, modelled as an
opaque boolean function parameter; the `HAS_GMPY2` import flag is a boolean
parameter as well, and the Python conjunction `HAS_GMPY2 and is_prime(...)`
short-circuits, so the oracle is only ever invoked when the flag is true.
-/

/-- The fixed exponent `Q = 47` of the source. -/
def Q : ℕ := 47

/-- The default search radius `SEARCH_RADIUS = 5000` of the source. -/
def SEARCH_RADIUS : ℕ := 5000

/-- `q47(n) = n**Q - (n-1)**Q` from the source (arbitrary-precision integers,
hence `ℤ`). -/
def q47 (n : ℤ) : ℤ := n ^ Q - (n - 1) ^ Q

/-- The hard-coded star list `hardcoded_n` of the source. -/
def hardcoded_n : List ℤ :=
  [117309848, 136584738, 218787064, 411784485, 423600750,
   523331634, 640399031, 987980498, 1163461515, 1370439187,
   1643105964, 1691581855, 1975860550, 1996430175,
   2156109985, 2367719045, 2559344807, 2646631730, 2682956949,
   2859276863, 2862155914, 2922108368, 3808591354, 3910149357,
   3984049296]

/-- The offsets visited by `range(2, radius + 1, 2)`:
`2, 4, …` up to the largest even number `≤ radius`. -/
def offsets (radius : ℕ) : List ℕ :=
  (List.range (radius / 2)).map (fun i => 2 + 2 * i)

/-- The quadruplet expansion `for offset in range(4): n = base_n + offset`:
each input base contributes the four consecutive stars it starts. -/
def starList (bases : List ℤ) : List ℤ :=
  bases.flatMap (fun b => (List.range 4).map (fun o => b + (o : ℤ)))

/-- One hit record: the main star `n`, the gap `k`, and whether the hit was
reported through the twin branch (`if k == 2` in the source). -/
structure Hit where
  n : ℤ
  k : ℕ
  isTwin : Bool
deriving DecidableEq

/-- The body of the offset loop for one `(n, k)` pair: skip when
`k % 3 == 1`, otherwise test `candidate = P - k` with
`HAS_GMPY2 and gmpy2.is_prime(candidate, 25)` and emit a hit on success. -/
def scanOffset (oracle : ℤ → Bool) (hasGmpy2 : Bool) (n : ℤ) (k : ℕ) :
    Option Hit :=
  if k % 3 = 1 then none
  else if hasGmpy2 && oracle (q47 n - (k : ℤ)) then
    some { n := n, k := k, isTwin := k == 2 }
  else none

/-- The hits emitted while scanning one main star `n`. -/
def scanStar (oracle : ℤ → Bool) (hasGmpy2 : Bool) (radius : ℕ) (n : ℤ) :
    List Hit :=
  (offsets radius).filterMap (scanOffset oracle hasGmpy2 n)

/-- The full hit sequence of one invocation, in emission order. -/
def scanHits (oracle : ℤ → Bool) (hasGmpy2 : Bool) (radius : ℕ)
    (bases : List ℤ) : List Hit :=
  (starList bases).flatMap (scanStar oracle hasGmpy2 radius)

/-- The `total_satellites` counter: incremented once per emitted hit. -/
def totalSatellites (oracle : ℤ → Bool) (hasGmpy2 : Bool) (radius : ℕ)
    (bases : List ℤ) : ℕ :=
  (scanHits oracle hasGmpy2 radius bases).length

/-- The `twin_primes` counter: incremented on hits taken through the
`k == 2` branch. -/
def twinPrimes (oracle : ℤ → Bool) (hasGmpy2 : Bool) (radius : ℕ)
    (bases : List ℤ) : ℕ :=
  ((scanHits oracle hasGmpy2 radius bases).filter (fun h => h.isTwin)).length

/-- The offsets at which the oracle is actually invoked while scanning one
star: the Python conjunction short-circuits, so with `HAS_GMPY2` false the
oracle is never called; otherwise it is called exactly at the unfiltered
offsets. -/
def testedOffsets (hasGmpy2 : Bool) (radius : ℕ) : List ℕ :=
  if hasGmpy2 then (offsets radius).filter (fun k => !(k % 3 == 1)) else []

/-- The trace of oracle invocations of one invocation: every `(n, k)` pair
for which `gmpy2.is_prime` is called, in call order. -/
def scanTested (hasGmpy2 : Bool) (radius : ℕ) (bases : List ℤ) :
    List (ℤ × ℕ) :=
  (starList bases).flatMap
    (fun n => (testedOffsets hasGmpy2 radius).map (fun k => (n, k)))

/-- Modelled from the spec: the input-validity predicate of the spec's
`InvalidInput` error condition (`radius` a positive even integer, every
base `≥ 1`).  The source contains no such check; this definition exists
only to compare the spec's words with the code's behaviour. -/
def validInput (radius : ℕ) (bases : List ℤ) : Prop :=
  0 < radius ∧ radius % 2 = 0 ∧ ∀ b ∈ bases, 1 ≤ b

instance (radius : ℕ) (bases : List ℤ) : Decidable (validInput radius bases) := by
  unfold validInput
  infer_instance

/-- An offset the scanner submits to the oracle: even, within `[2, radius]`,
and not removed by the `k % 3 == 1` filter. -/
def eligibleOffset (radius k : ℕ) : Prop :=
  2 ≤ k ∧ k ≤ radius ∧ k % 2 = 0 ∧ k % 3 ≠ 1

instance (radius k : ℕ) : Decidable (eligibleOffset radius k) := by
  unfold eligibleOffset
  infer_instance

/-! ### Helper lemmas about the offset window and the star expansion -/

lemma length_offsets (radius : ℕ) : (offsets radius).length = radius / 2 := by
  simp [offsets]

lemma mem_offsets {radius k : ℕ} :
    k ∈ offsets radius ↔ 2 ≤ k ∧ k ≤ radius ∧ k % 2 = 0 := by
  simp only [offsets, List.mem_map, List.mem_range]
  constructor
  · rintro ⟨i, hi, rfl⟩
    omega
  · rintro ⟨h1, h2, h3⟩
    exact ⟨k / 2 - 1, by omega, by omega⟩

lemma offsets_pairwise (radius : ℕ) : (offsets radius).Pairwise (· < ·) := by
  refine List.Pairwise.map _ (fun h => ?_) (List.pairwise_lt_range _)
  omega

lemma offsets_nodup (radius : ℕ) : (offsets radius).Nodup :=
  (offsets_pairwise radius).imp Nat.ne_of_lt

lemma starBlock_eq (b : ℤ) :
    (List.range 4).map (fun o => b + (o : ℤ)) = [b, b + 1, b + 2, b + 3] := by
  simp [show List.range 4 = [0, 1, 2, 3] from rfl]

lemma starList_cons (b : ℤ) (t : List ℤ) :
    starList (b :: t) = [b, b + 1, b + 2, b + 3] ++ starList t := by
  rw [starList, List.flatMap_cons, starBlock_eq, starList]

lemma length_starList (bases : List ℤ) :
    (starList bases).length = 4 * bases.length := by
  induction bases with
  | nil => rfl
  | cons b t ih =>
    rw [starList_cons, List.length_append, ih]
    simp
    omega

lemma mem_starList {bases : List ℤ} {b : ℤ} (hb : b ∈ bases) {o : ℕ}
    (ho : o < 4) : b + (o : ℤ) ∈ starList bases := by
  induction bases with
  | nil => simp at hb
  | cons c t ih =>
    rw [starList_cons]
    rcases List.mem_cons.mp hb with rfl | hm
    · interval_cases o <;> simp
    · simp only [List.mem_append]
      exact Or.inr (ih hm)

lemma count_map_pair (m n : ℤ) (k : ℕ) (ks : List ℕ) :
    ((ks.map (fun j => (m, j))).count (n, k)) =
      if m = n then ks.count k else 0 := by
  induction ks with
  | nil => simp
  | cons j t ih =>
    simp only [List.map_cons, List.count_cons, ih]
    by_cases hmn : m = n <;> by_cases hjk : k = j <;>
      simp [hmn, hjk, Prod.ext_iff]

lemma count_flatMap_pairs (stars : List ℤ) (ks : List ℕ) (n : ℤ) (k : ℕ) :
    ((stars.flatMap (fun m => ks.map (fun j => (m, j)))).count (n, k)) =
      stars.count n * ks.count k := by
  induction stars with
  | nil => simp
  | cons m t ih =>
    rw [List.flatMap_cons, List.count_append, ih, count_map_pair,
      List.count_cons]
    by_cases hmn : m = n
    · subst hmn
      simp [Nat.add_mul, Nat.add_comm]
    · have hnm : (n == m) = false := by
        simp [Ne.symm hmn]
      simp [hmn, hnm]

lemma count_testedOffsets (radius k : ℕ) :
    (testedOffsets true radius).count k =
      if eligibleOffset radius k then 1 else 0 := by
  rw [testedOffsets, if_pos rfl]
  by_cases he : eligibleOffset radius k
  · rw [if_pos he]
    obtain ⟨h1, h2, h3, h4⟩ := he
    refine List.count_eq_one_of_mem ((offsets_nodup radius).filter _)
      (List.mem_filter.mpr ⟨mem_offsets.mpr ⟨h1, h2, h3⟩, ?_⟩)
    simp
    omega
  · rw [if_neg he]
    refine List.count_eq_zero_of_not_mem (fun hm => he ?_)
    have hmem := List.mem_filter.mp hm
    have ho := mem_offsets.mp hmem.1
    have h31 : k % 3 ≠ 1 := by
      have := hmem.2
      simp at this
      omega
    exact ⟨ho.1, ho.2.1, ho.2.2, h31⟩

lemma mem_testedOffsets {radius k : ℕ} :
    k ∈ testedOffsets true radius ↔ eligibleOffset radius k := by
  have h := count_testedOffsets radius k
  by_cases he : eligibleOffset radius k
  · rw [if_pos he] at h
    exact ⟨fun _ => he, fun _ => List.count_pos_iff.mp (by omega)⟩
  · rw [if_neg he] at h
    exact ⟨fun hm => absurd (List.count_pos_iff.mpr hm) (by omega),
      fun hm => absurd hm he⟩

lemma count_scanTested (radius : ℕ) (bases : List ℤ) (n : ℤ) (k : ℕ) :
    (scanTested true radius bases).count (n, k) =
      if eligibleOffset radius k then (starList bases).count n else 0 := by
  rw [scanTested, count_flatMap_pairs, count_testedOffsets]
  by_cases he : eligibleOffset radius k <;> simp [he]

lemma mem_scanTested {radius : ℕ} {bases : List ℤ} {n : ℤ} {k : ℕ} :
    (n, k) ∈ scanTested true radius bases ↔
      n ∈ starList bases ∧ eligibleOffset radius k := by
  rw [scanTested]
  simp only [List.mem_flatMap, List.mem_map]
  constructor
  · rintro ⟨m, hm, j, hj, heq⟩
    obtain ⟨rfl, rfl⟩ : m = n ∧ j = k := by
      constructor <;> cases heq <;> rfl
    exact ⟨hm, mem_testedOffsets.mp hj⟩
  · rintro ⟨hn, hk⟩
    exact ⟨n, hn, k, mem_testedOffsets.mpr hk, rfl⟩

/-! ### Structure of the emitted hit sequence -/

lemma scanOffset_eq_some {oracle : ℤ → Bool} {hasGmpy2 : Bool} {n : ℤ}
    {k : ℕ} {h : Hit} (hs : scanOffset oracle hasGmpy2 n k = some h) :
    h = { n := n, k := k, isTwin := k == 2 } ∧ k % 3 ≠ 1 ∧
      (hasGmpy2 && oracle (q47 n - (k : ℤ))) = true := by
  rw [scanOffset] at hs
  split at hs
  · exact absurd hs (by simp)
  · split at hs
    · exact ⟨(Option.some.injEq .. ▸ hs).symm, by assumption, by assumption⟩
    · exact absurd hs (by simp)

lemma map_k_scanStar (oracle : ℤ → Bool) (hasGmpy2 : Bool) (radius : ℕ)
    (n : ℤ) :
    (scanStar oracle hasGmpy2 radius n).map Hit.k =
      (offsets radius).filter
        (fun k => (scanOffset oracle hasGmpy2 n k).isSome) := by
  rw [scanStar]
  induction offsets radius with
  | nil => rfl
  | cons a t ih =>
    rw [List.filterMap_cons, List.filter_cons]
    cases hs : scanOffset oracle hasGmpy2 n a with
    | none => simp [hs, ih]
    | some h =>
      have hk : h.k = a := by
        rw [(scanOffset_eq_some hs).1]
      simp [hs, ih, hk]

lemma scanStar_k_sorted (oracle : ℤ → Bool) (hasGmpy2 : Bool) (radius : ℕ)
    (n : ℤ) :
    ((scanStar oracle hasGmpy2 radius n).map Hit.k).Pairwise (· < ·) := by
  rw [map_k_scanStar]
  exact (offsets_pairwise radius).filter _

lemma length_scanStar_le (oracle : ℤ → Bool) (hasGmpy2 : Bool) (radius : ℕ)
    (n : ℤ) : (scanStar oracle hasGmpy2 radius n).length ≤ radius / 2 := by
  rw [scanStar]
  calc ((offsets radius).filterMap (scanOffset oracle hasGmpy2 n)).length
      ≤ (offsets radius).length := List.length_filterMap_le _ _
    _ = radius / 2 := length_offsets radius

lemma length_scanHits_le (oracle : ℤ → Bool) (hasGmpy2 : Bool) (radius : ℕ)
    (bases : List ℤ) :
    (scanHits oracle hasGmpy2 radius bases).length ≤
      4 * bases.length * (radius / 2) := by
  rw [scanHits, List.length_flatMap]
  have h1 : ((starList bases).map
      (fun n => (scanStar oracle hasGmpy2 radius n).length)).sum ≤
      ((starList bases).map
        (fun n => (scanStar oracle hasGmpy2 radius n).length)).length *
        (radius / 2) := by
    have := List.sum_le_card_nsmul
      ((starList bases).map
        (fun n => (scanStar oracle hasGmpy2 radius n).length))
      (radius / 2) ?_
    · simpa using this
    · intro x hx
      obtain ⟨n, _, rfl⟩ := List.mem_map.mp hx
      exact length_scanStar_le oracle hasGmpy2 radius n
  calc ((starList bases).map
      (fun n => (scanStar oracle hasGmpy2 radius n).length)).sum
      ≤ _ * (radius / 2) := h1
    _ = 4 * bases.length * (radius / 2) := by
        rw [List.length_map, length_starList]

lemma scanStar_false (oracle : ℤ → Bool) (radius : ℕ) (n : ℤ) :
    scanStar oracle false radius n = [] := by
  rw [scanStar, List.filterMap_eq_nil_iff]
  intro k _
  rw [scanOffset]
  split
  · rfl
  · simp

lemma scanHits_false (oracle : ℤ → Bool) (radius : ℕ) (bases : List ℤ) :
    scanHits oracle false radius bases = [] := by
  rw [scanHits, List.flatMap_eq_nil_iff]
  intro n _
  exact scanStar_false oracle radius n

lemma scanTested_false (radius : ℕ) (bases : List ℤ) :
    scanTested false radius bases = [] := by
  rw [scanTested, List.flatMap_eq_nil_iff]
  intro n _
  rw [testedOffsets]
  simp

lemma mem_scanHits {oracle : ℤ → Bool} {hasGmpy2 : Bool} {radius : ℕ}
    {bases : List ℤ} {h : Hit}
    (hm : h ∈ scanHits oracle hasGmpy2 radius bases) :
    ∃ n ∈ starList bases, ∃ k ∈ offsets radius,
      scanOffset oracle hasGmpy2 n k = some h := by
  rw [scanHits] at hm
  obtain ⟨n, hn, hstar⟩ := List.mem_flatMap.mp hm
  obtain ⟨k, hk, hs⟩ := List.mem_filterMap.mp hstar
  exact ⟨n, hn, k, hk, hs⟩

/-! ### Arithmetic of the derived value `q47` -/

lemma q47_def (n : ℤ) : q47 n = n ^ 47 - (n - 1) ^ 47 := rfl

lemma q47_zmod3 (n : ℤ) : ((q47 n : ℤ) : ZMod 3) = 1 := by
  have h : ∀ z : ZMod 3, z ^ 47 - (z - 1) ^ 47 = 1 := by decide
  rw [q47_def]
  push_cast
  exact h _

/-- The lower binomial tail `∑ m < 47, x^m * C(47, m)`, which equals
`(x+1)^47 - x^47`; a proof device for monotonicity of `q47`. -/
def binomTail (x : ℕ) : ℕ := ∑ m ∈ Finset.range 47, x ^ m * Nat.choose 47 m

lemma add_pow_47 (x : ℕ) : (x + 1) ^ 47 = binomTail x + x ^ 47 := by
  have h := add_pow x 1 47
  simp only [one_pow, mul_one] at h
  rw [h, Finset.sum_range_succ, Nat.choose_self, binomTail]
  simp

lemma binomTail_strictMono {x y : ℕ} (hxy : x < y) :
    binomTail x < binomTail y := by
  refine Finset.sum_lt_sum (fun m _ => ?_)
    ⟨1, Finset.mem_range.mpr (by norm_num), ?_⟩
  · exact Nat.mul_le_mul_right _ (Nat.pow_le_pow_left hxy.le m)
  · have h47 : Nat.choose 47 1 = 47 := by decide
    rw [h47, pow_one, pow_one]
    omega

lemma q47_succ_nat (x : ℕ) : q47 ((x : ℤ) + 1) = (binomTail x : ℤ) := by
  have h2 : ((x : ℤ) + 1) ^ 47 = (binomTail x : ℤ) + (x : ℤ) ^ 47 := by
    exact_mod_cast add_pow_47 x
  rw [q47_def, h2]
  ring

lemma not_prime_of_three_dvd {c : ℤ} (hd : 3 ∣ c) (hc : 3 < c) :
    ¬ Prime c := by
  intro hp
  obtain ⟨e, he⟩ := hd
  rcases hp.irreducible.isUnit_or_isUnit he with h | h
  · rw [Int.isUnit_iff] at h
    omega
  · rw [Int.isUnit_iff] at h
    rcases h with rfl | rfl <;> omega

lemma count_starList (bases : List ℤ) (n : ℤ) :
    (starList bases).count n =
      bases.countP (fun b => decide (b ≤ n ∧ n ≤ b + 3)) := by
  induction bases with
  | nil => rfl
  | cons b t ih =>
    rw [starList_cons, List.count_append, ih, List.countP_cons]
    have hblock : ([b, b + 1, b + 2, b + 3].count n) =
        if b ≤ n ∧ n ≤ b + 3 then 1 else 0 := by
      simp only [List.count_cons, List.count_nil]
      by_cases h0 : n = b <;> by_cases h1 : n = b + 1 <;>
        by_cases h2 : n = b + 2 <;> by_cases h3 : n = b + 3 <;>
        simp [h0, h1, h2, h3] <;> split_ifs <;> omega
    rw [hblock]
    by_cases hb : b ≤ n ∧ n ≤ b + 3
    · simp [hb]
      omega
    · simp [hb]

lemma countP_pos_of_mem {α : Type} {p : α → Bool} {l : List α} {a : α}
    (ha : a ∈ l) (hpa : p a) : 0 < l.countP p :=
  List.countP_pos_iff.mpr ⟨a, ha, hpa⟩

lemma two_le_countP {α : Type} (p : α → Bool) {l : List α} {a b : α}
    (ha : a ∈ l) (hb : b ∈ l) (hab : a ≠ b) (hpa : p a) (hpb : p b) :
    2 ≤ l.countP p := by
  induction l with
  | nil => simp at ha
  | cons c t ih =>
    rw [List.countP_cons]
    rcases List.mem_cons.mp ha with rfl | hat
    · have hbt : b ∈ t := by
        rcases List.mem_cons.mp hb with rfl | h
        · exact absurd rfl hab
        · exact h
      have h1 := countP_pos_of_mem hbt hpb
      rw [if_pos hpa]
      omega
    · rcases List.mem_cons.mp hb with rfl | hbt
      · have h1 := countP_pos_of_mem hat hpa
        rw [if_pos hpb]
        omega
      · have := ih hat hbt
        omega

/-! ### The claims -/

/-- C1: for every base `n ≥ 1` and every offset `k` with `k % 3 = 1`, the
unfiltered candidate `q47 n - k` is divisible by 3, and hence not prime once
it exceeds 3 — the admissibility filter never removes an offset whose
candidate could legitimately be prime. -/
theorem filter_soundness (n : ℤ) (k : ℕ) (hn : 1 ≤ n) (hk : k % 3 = 1) :
    (3 : ℤ) ∣ (q47 n - (k : ℤ)) ∧
      (3 < q47 n - (k : ℤ) → ¬ Prime (q47 n - (k : ℤ))) := by
  have hdvd : (3 : ℤ) ∣ (q47 n - (k : ℤ)) := by
    have hk3 : (((k : ℤ)) : ZMod 3) = 1 := by
      obtain ⟨m, rfl⟩ : ∃ m, k = 3 * m + 1 := ⟨k / 3, by omega⟩
      push_cast
      rw [show ((3 : ZMod 3)) = 0 from by decide]
      ring
    have hcast : ((q47 n - (k : ℤ) : ℤ) : ZMod 3) = 0 := by
      rw [Int.cast_sub, q47_zmod3, hk3]
      ring
    exact (ZMod.intCast_zmod_eq_zero_iff_dvd _ 3).mp hcast
  exact ⟨hdvd, fun hgt => not_prime_of_three_dvd hdvd hgt⟩

theorem filter_soundness_witness :
    (1 : ℤ) ≤ 2 ∧ 4 % 3 = 1 ∧
      ((3 : ℤ) ∣ (q47 2 - ((4 : ℕ) : ℤ)) ∧
        (3 < q47 2 - ((4 : ℕ) : ℤ) → ¬ Prime (q47 2 - ((4 : ℕ) : ℤ)))) :=
  ⟨by norm_num, by norm_num, filter_soundness 2 4 (by norm_num) (by norm_num)⟩

/-- C2 counterexample: with the distinct input bases 1 and 2 the star 2 is
processed twice (once from each quadruplet expansion), so the oracle is
invoked twice for the pair `(2, 2)`, not exactly once. -/
theorem completeness_counterexample :
    (2 : ℤ) ∈ starList [1, 2] ∧ eligibleOffset 2 2 ∧
      (scanTested true 2 [1, 2]).count ((2 : ℤ), 2) ≠ 1 :=
  ⟨by decide, by decide, by decide⟩

/-- C2 amended: when gmpy2 is available, the number of oracle invocations
for a pair `(n, k)` equals the multiplicity of the star `n` in the expanded
star list when `k` is an eligible offset, and zero otherwise; in particular
it is exactly one whenever `n` arises from exactly one quadruplet
expansion. -/
theorem completeness_amended (radius : ℕ) (bases : List ℤ) (n : ℤ) (k : ℕ) :
    (scanTested true radius bases).count (n, k) =
      if eligibleOffset radius k then (starList bases).count n else 0 :=
  count_scanTested radius bases n k

/-- C3 counterexample: for star 1 (reachable from input base 1) and offset 2
the candidate `q47 1 - 2 = -1` is negative, yet the pair `(1, 2)` is in the
oracle-invocation trace: the code has no non-positivity check. -/
theorem nonpositive_candidate_counterexample :
    q47 1 - ((2 : ℕ) : ℤ) ≤ 0 ∧ ((1 : ℤ), 2) ∈ scanTested true 2 [1] :=
  ⟨by decide, by decide⟩

/-- C3 amended: the scan applies no non-positivity test: every eligible
offset of every processed star is handed to the oracle even when the
candidate `q47 n - k` is zero or negative; rejection of such candidates is
delegated entirely to the oracle. -/
theorem nonpositive_candidate_amended (radius : ℕ) (bases : List ℤ) (n : ℤ)
    (k : ℕ) (hn : n ∈ starList bases) (hk : eligibleOffset radius k)
    (hneg : q47 n - (k : ℤ) ≤ 0) :
    (n, k) ∈ scanTested true radius bases :=
  mem_scanTested.mpr ⟨hn, hk⟩

theorem nonpositive_candidate_amended_witness :
    (1 : ℤ) ∈ starList [1] ∧ eligibleOffset 4 2 ∧
      q47 1 - ((2 : ℕ) : ℤ) ≤ 0 ∧ ((1 : ℤ), 2) ∈ scanTested true 4 [1] :=
  ⟨by decide, by decide, by decide,
    nonpositive_candidate_amended 4 [1] 1 2 (by decide) (by decide) (by decide)⟩

/-- C4 counterexample: the invocation with odd radius 3 and base 0 (< 1) is
invalid per the spec, yet the scan produces oracle invocations instead of
failing before scanning begins. -/
theorem invalid_input_counterexample :
    ¬ validInput 3 [0] ∧ scanTested true 3 [(0 : ℤ)] ≠ [] :=
  ⟨by decide, by decide⟩

/-- C4 amended: the code performs no input validation and has no
`InvalidInput` error path: even for invalid input (odd or non-positive
radius, or a base below 1) the scan proceeds and, whenever there is at
least one base and the radius admits the offset 2, invokes the oracle. -/
theorem invalid_input_amended (radius : ℕ) (bases : List ℤ)
    (hinv : ¬ validInput radius bases) (hne : bases ≠ []) (hr : 2 ≤ radius) :
    scanTested true radius bases ≠ [] := by
  obtain ⟨b, t, rfl⟩ := List.exists_cons_of_ne_nil hne
  have hb : b ∈ b :: t := List.mem_cons_self b t
  have hmem : ((b : ℤ), 2) ∈ scanTested true radius (b :: t) := by
    refine mem_scanTested.mpr ⟨?_, ⟨le_refl 2, hr, by norm_num, by norm_num⟩⟩
    have := mem_starList hb (show 0 < 4 by norm_num)
    simpa using this
  exact List.ne_nil_of_mem hmem

theorem invalid_input_amended_witness :
    ¬ validInput 3 [(0 : ℤ)] ∧ ([(0 : ℤ)] : List ℤ) ≠ [] ∧ (2 : ℕ) ≤ 3 ∧
      scanTested true 3 [(0 : ℤ)] ≠ [] :=
  ⟨by decide, by decide, by decide,
    invalid_input_amended 3 [0] (by decide) (by decide) (by decide)⟩

/-- C5: every emitted hit record is classified as a twin (taken through the
`k == 2` branch that feeds `twin_primes` and the twin-pair message) exactly
when its offset equals 2. -/
theorem twin_flag_iff (oracle : ℤ → Bool) (hasGmpy2 : Bool) (radius : ℕ)
    (bases : List ℤ) (h : Hit)
    (hm : h ∈ scanHits oracle hasGmpy2 radius bases) :
    h.isTwin = true ↔ h.k = 2 := by
  obtain ⟨n, _, k, _, hs⟩ := mem_scanHits hm
  obtain ⟨rfl, -, -⟩ := scanOffset_eq_some hs
  simp

theorem twin_flag_iff_witness :
    (⟨1, 2, true⟩ : Hit) ∈ scanHits (fun _ => true) true 2 [1] ∧
      ((⟨1, 2, true⟩ : Hit).isTwin = true ↔ (⟨1, 2, true⟩ : Hit).k = 2) :=
  ⟨by decide, twin_flag_iff (fun _ => true) true 2 [1] ⟨1, 2, true⟩ (by decide)⟩

/-- C6: within the scan of one derived value (one main star), the offsets of
the emitted hits are strictly increasing, so in particular no offset is
reported twice for that star. -/
theorem hits_order (oracle : ℤ → Bool) (hasGmpy2 : Bool) (radius : ℕ)
    (n : ℤ) :
    ((scanStar oracle hasGmpy2 radius n).map Hit.k).Pairwise (· < ·) ∧
      ((scanStar oracle hasGmpy2 radius n).map Hit.k).Nodup :=
  ⟨scanStar_k_sorted oracle hasGmpy2 radius n,
    (scanStar_k_sorted oracle hasGmpy2 radius n).imp Nat.ne_of_lt⟩

/-- C7 counterexample: with an all-accepting oracle, one input base and
radius 2 the scan emits 4 hits (one per expanded star), exceeding the
claimed bound `|bases| × radius/2 = 1`. -/
theorem hits_bound_counterexample :
    ¬ ((scanHits (fun _ => true) true 2 [(1 : ℤ)]).length ≤
        ([(1 : ℤ)] : List ℤ).length * (2 / 2)) := by
  decide

/-- C7 amended: the hit sequence is finite, of length at most
`4 × |bases| × ⌊radius/2⌋` — each input base is expanded into four stars
and each star window holds `⌊radius/2⌋` offsets. -/
theorem hits_bound_amended (oracle : ℤ → Bool) (hasGmpy2 : Bool)
    (radius : ℕ) (bases : List ℤ) :
    (scanHits oracle hasGmpy2 radius bases).length ≤
      4 * bases.length * (radius / 2) :=
  length_scanHits_le oracle hasGmpy2 radius bases

/-- C8: the derived value `q47` is strictly monotonically increasing on
bases `≥ 1`. -/
theorem q47_strict_mono (a b : ℤ) (h1 : 1 ≤ a) (hab : a < b) :
    q47 a < q47 b := by
  obtain ⟨x, rfl⟩ : ∃ x : ℕ, a = (x : ℤ) + 1 := ⟨(a - 1).toNat, by omega⟩
  obtain ⟨y, rfl⟩ : ∃ y : ℕ, b = (y : ℤ) + 1 := ⟨(b - 1).toNat, by omega⟩
  rw [q47_succ_nat, q47_succ_nat]
  exact_mod_cast binomTail_strictMono (by omega)

theorem q47_strict_mono_witness :
    (1 : ℤ) ≤ 1 ∧ (1 : ℤ) < 2 ∧ q47 1 < q47 2 :=
  ⟨by norm_num, by norm_num, q47_strict_mono 1 2 (by norm_num) (by norm_num)⟩

/-- C9: each input base `b` is expanded into the four consecutive stars
`b, b+1, b+2, b+3`, each of which has its full eligible offset window
submitted to the oracle (so hits can concern stars not in the input), and
when two input bases are less than 4 apart the star they share is scanned
more than once. -/
theorem quadruplet_expansion (radius : ℕ) (bases : List ℤ) (b : ℤ)
    (hb : b ∈ bases) :
    (∀ o : ℕ, o < 4 → ∀ k : ℕ, eligibleOffset radius k →
        ((b + (o : ℤ)), k) ∈ scanTested true radius bases) ∧
    (∀ b2 ∈ bases, b < b2 → b2 ≤ b + 3 →
        2 ≤ (starList bases).count b2) := by
  constructor
  · intro o ho k hk
    exact mem_scanTested.mpr ⟨mem_starList hb ho, hk⟩
  · intro b2 hb2 hlt hle
    rw [count_starList]
    refine two_le_countP _ hb hb2 (by omega) ?_ ?_
    · simp only [decide_eq_true_eq]
      omega
    · simp only [decide_eq_true_eq]
      omega

theorem quadruplet_expansion_witness :
    (1 : ℤ) ∈ ([1, 2] : List ℤ) ∧
      ((1 : ℤ) + ((1 : ℕ) : ℤ), 2) ∈ scanTested true 2 [1, 2] ∧
      2 ≤ (starList [1, 2]).count 2 :=
  ⟨by decide,
    (quadruplet_expansion 2 [1, 2] 1 (by decide)).1 1 (by decide) 2 (by decide),
    (quadruplet_expansion 2 [1, 2] 1 (by decide)).2 2 (by decide) (by decide)
      (by decide)⟩

/-- C10: when gmpy2 is missing the scan still completes over every base and
offset, performs no oracle invocation, emits no hit and leaves both
counters at zero, for every input — it reports success instead of
failing. -/
theorem gmpy2_fallback (oracle : ℤ → Bool) (radius : ℕ) (bases : List ℤ) :
    scanTested false radius bases = [] ∧
      scanHits oracle false radius bases = [] ∧
      totalSatellites oracle false radius bases = 0 ∧
      twinPrimes oracle false radius bases = 0 := by
  refine ⟨scanTested_false radius bases, scanHits_false oracle radius bases,
    ?_, ?_⟩
  · rw [totalSatellites, scanHits_false]
    rfl
  · rw [twinPrimes, scanHits_false]
    rfl
